import Mathlib

/-!
Verification of the service-listing data pipeline of `pylaunchd_gui.py`
(repository glowinthedark/pylaunchd).

The pipeline consists of two parts:

* the Job Lister (`MainWindow.load_data_launchctl`): it shells out to
  `launchctl print`, slices the `services = \x7b` block out of the textual
  output, extracts a label from each line, fetches per-label detail text,
  and scrapes `path = ` / `state = ` lines with
  `re.findall` in MULTILINE mode;
* the View Projection (`MainWindow.on_search_changed` and
  `CustomTableModel.sort`): `data_all` holds the full snapshot, `data`
  holds the derived filtered/sorted view.

The external `launchctl` invocations are modelled as inputs: the listing
text is a `String` parameter and the per-label detail fetch is a function
`String → String`.  All string primitives used by the Python code
(`str.split`, `str.splitlines`, substring containment, `str.lower`,
`str.startswith`, the two regular expressions, `sorted`) are embedded as
executable functions on `List Char` below; the inputs handled by the
program are ASCII `launchctl` output, and the character-class functions
(`\s`, `str.lower`) are modelled on that range.
-/

/-- Predicate for Python's `\s` character class on the ASCII range
(`[ \t\n\r\f\v]`), the characters that occur in `launchctl` output. -/
def isPySpace (c : Char) : Bool :=
  c == ' ' || c == '\t' || c == '\n' || c == '\r' || c == '\x0b' || c == '\x0c'

/-- Python `str.lower` on the ASCII range: fold `A`–`Z` to `a`–`z`. -/
def lowerChar (c : Char) : Char :=
  if 65 ≤ c.toNat ∧ c.toNat ≤ 90 then Char.ofNat (c.toNat + 32) else c

/-- Lowercase every character (Python `s.lower()`). -/
def lowerList (cs : List Char) : List Char := cs.map lowerChar

/-- Does the second list start with the first (Python `str.startswith`)? -/
def startsWithList : List Char → List Char → Bool
  | [], _ => true
  | _ :: _, [] => false
  | a :: as, b :: bs => a == b && startsWithList as bs

/-- Substring containment, Python's `needle in hay` on strings. -/
def containsSubList (needle : List Char) : List Char → Bool
  | [] => startsWithList needle []
  | c :: rest => startsWithList needle (c :: rest) || containsSubList needle rest

/-- The text before the first occurrence of `sep` (the whole text when
`sep` does not occur): Python `s.split(sep)[0]` for non-empty `sep`. -/
def beforeFirst (sep : List Char) : List Char → List Char
  | [] => []
  | c :: cs =>
    if startsWithList sep (c :: cs) then []
    else c :: beforeFirst sep cs

/-- The text after the first occurrence of `sep`, or `none` when `sep`
does not occur.  For non-empty `sep`, Python `s.split(sep)[1]` is
`beforeFirst sep` of this (the next split piece ends at the following
occurrence), and indexing `[1]` raises `IndexError` exactly on `none`. -/
def afterFirst (sep : List Char) : List Char → Option (List Char)
  | [] => none
  | c :: cs =>
    if startsWithList sep (c :: cs) then some ((c :: cs).drop sep.length)
    else afterFirst sep cs

/-- The part after the last tab: Python `line.split('\t')[-1]`.
The accumulator holds the characters of the current piece, reversed. -/
def lastPartTab (acc : List Char) : List Char → List Char
  | [] => acc.reverse
  | c :: cs => if c == '\t' then lastPartTab [] cs else lastPartTab (c :: acc) cs

/-- Python `str.splitlines` for `\n`-separated text (the only line
terminator in `launchctl` output): splits at every newline and does not
produce a final empty line for a trailing newline. -/
def splitlinesAux (acc : List Char) : List Char → List (List Char)
  | [] => if acc.isEmpty then [] else [acc.reverse]
  | c :: cs =>
    if c == '\n' then acc.reverse :: splitlinesAux [] cs
    else splitlinesAux (c :: acc) cs

/-- Python `text.splitlines()` (newline-terminated text). -/
def pySplitlines (cs : List Char) : List (List Char) := splitlinesAux [] cs

/-- Attempt of the regular expression `^\s+KEY =\s(.*$)` (MULTILINE) at a
position that is a line start, returning the captured group.  Because the
key begins with a non-whitespace letter, the greedy `\s+` can only match
the maximal whitespace run, so the match attempt is deterministic: a
non-empty whitespace run, then the literal `KEY =`, then one whitespace
character, then the capture runs to the end of the line. -/
def matchKeyAt (key : List Char) (cs : List Char) : Option (List Char) :=
  let pre := cs.takeWhile isPySpace
  let rest := cs.dropWhile isPySpace
  if pre.isEmpty then none
  else if startsWithList key rest then
    match rest.drop key.length with
    | [] => none
    | c :: tail =>
      if isPySpace c then some (tail.takeWhile (fun d => d != '\n')) else none
  else none

/-- Scan for the leftmost match of `^\s+KEY =\s(.*$)`: `re.MULTILINE`
anchors `^` at the text start and after each newline, and `re.findall`
reports matches left to right, so the head of `re.findall` is the first
line-start position at which `matchKeyAt` succeeds.  The flag records
whether the current position is a line start. -/
def findKeyAux (key : List Char) : Bool → List Char → Option (List Char)
  | _, [] => none
  | atStart, c :: cs =>
    if atStart then
      match matchKeyAt key (c :: cs) with
      | some cap => some cap
      | none => findKeyAux key (c == '\n') cs
    else findKeyAux key (c == '\n') cs

/-- The captured group of the first match of `^\s+KEY =\s(.*$)` in
MULTILINE mode: `re.findall(pattern, text, re.MULTILINE)[0]`, with `none`
when `re.findall` returns the empty list. -/
def findKey (key : List Char) (cs : List Char) : Option (List Char) :=
  findKeyAux key true cs

/-- One job row.  The Python code stores `[label, path, state]` lists;
columns 0, 1, 2 of the table. -/
structure JobRecord where
  label : String
  path : String
  state : String
deriving DecidableEq, Repr

/-- The per-label detail cache `self.jobs`, a Python dict from label to
the raw detail text, modelled as an association list in insertion order. -/
def Jobs := List (String × String)
deriving DecidableEq

/-- Python `d[k] = v` on a dict: overwrite in place when the key exists,
append otherwise. -/
def dictInsert (k v : String) : List (String × String) → List (String × String)
  | [] => [(k, v)]
  | (k', v') :: rest =>
    if k' == k then (k', v) :: rest else (k', v') :: dictInsert k v rest

/-- Python `d.get(k)` on a dict. -/
def dictGet (k : String) : List (String × String) → Option String
  | [] => none
  | (k', v') :: rest => if k' == k then some v' else dictGet k rest

/-- The listing-block opening marker `'services = \x7b\n'` used by
`load_data_launchctl` (line 359). -/
def servicesMarker : List Char := "services = \x7b\n".toList

/-- The closing marker `'\t\x7d'` used by `load_data_launchctl` (line 359). -/
def closingMarker : List Char := "\t\x7d".toList

/-- Key of the path regex `'^\s+path =\s(.*$)'` (line 366). -/
def pathKey : List Char := "path =".toList

/-- Key of the state regex `'^\s+state =\s(.*$)'` (line 370). -/
def stateKey : List Char := "state =".toList

/-- Label extraction from one services line: `line.split('\t')[-1]`. -/
def lineLabel (line : List Char) : List Char := lastPartTab [] line

/-- The body of the `for line in services.splitlines()` loop of
`load_data_launchctl` (lines 361–372): skip empty labels, fetch and cache
the detail text, scrape the first `path = ` capture, and append a record
only when the path starts with `/`; the state is the first `state = `
capture or the empty string.  (In the Python, an empty first `path`
capture is collapsed to `None` by `len(paths) and paths[0] or None`; an
empty capture also fails `startswith('/')`, so the branch is the same.) -/
def loadStep (describe : String → String)
    (acc : List JobRecord × List (String × String)) (line : List Char) :
    List JobRecord × List (String × String) :=
  let label := lineLabel line
  if label.isEmpty then acc
  else
    let labelS := String.mk label
    let details := describe labelS
    let jobs' := dictInsert labelS details acc.2
    match findKey pathKey details.toList with
    | some p =>
      if startsWithList ['/'] p then
        (acc.1 ++ [⟨labelS, String.mk p,
          String.mk ((findKey stateKey details.toList).getD [])⟩], jobs')
      else (acc.1, jobs')
    | none => (acc.1, jobs')

/-- `MainWindow.load_data_launchctl` (lines 346–374), with the external
tool abstracted: `listing` is the captured output of
`launchctl print <domain>[/<uid>]` and `describe label` is the captured
output of `launchctl print <domain>[/<uid>]/<label>`.  `jobs` is the
incoming `self.jobs` cache.  The result is `none` when
`listing.split('services = \x7b\n')[1]` raises `IndexError` (marker
absent); otherwise `some (data, jobs')` with the returned rows and the
updated cache. -/
def load_data_launchctl (listing : String) (describe : String → String)
    (jobs : List (String × String)) :
    Option (List JobRecord × List (String × String)) :=
  match afterFirst servicesMarker listing.toList with
  | none => none
  | some rest =>
    let services := beforeFirst closingMarker (beforeFirst servicesMarker rest)
    some ((pySplitlines services).foldl (loadStep describe) ([], jobs))

/-- The non-empty labels of a list of services lines, in order. -/
def labelsOfLines (lines : List (List Char)) : List String :=
  ((lines.map lineLabel).filter (fun l => !l.isEmpty)).map String.mk

/-- The labels extracted from the listing text, in listing order
(non-empty `line.split('\t')[-1]` for each line of the services block);
empty when the marker is absent. -/
def listedLabels (listing : String) : List String :=
  match afterFirst servicesMarker listing.toList with
  | none => []
  | some rest =>
    labelsOfLines (pySplitlines (beforeFirst closingMarker (beforeFirst servicesMarker rest)))

/-- The view-projection state: `self.data_all` (the full snapshot) and
`self.data` (the displayed view, which is also the table model's
`arraydata`).  The two are distinct Python list objects that are only
ever updated by slice assignment, so plain values model them. -/
structure ViewState where
  data_all : List JobRecord
  data : List JobRecord
deriving DecidableEq, Repr

/-- The record predicate of the search filter (line 303):
`text.lower() in d[0].lower() or text in d[1].lower()` — the text is
lowercased against the lowercased label, but matched verbatim against the
lowercased path. -/
def recordMatches (text : String) (d : JobRecord) : Bool :=
  containsSubList (lowerList text.toList) (lowerList d.label.toList) ||
    containsSubList text.toList (lowerList d.path.toList)

/-- `MainWindow.on_search_changed` (lines 295–310): with non-empty text,
`self.data[:] = [d for d in self.data_all if ...]`; with empty text,
`self.data[:] = self.data_all`. -/
def on_search_changed (text : String) (st : ViewState) : ViewState :=
  if text.isEmpty then { st with data := st.data_all }
  else { st with data := st.data_all.filter (recordMatches text) }

/-- Lexicographic order by code point on character lists: Python's `<=`
on strings, the comparison used by `sorted(..., key=itemgetter(ncol))`. -/
def leChars : List Char → List Char → Bool
  | [], _ => true
  | _ :: _, [] => false
  | a :: as, b :: bs => if a = b then leChars as bs else decide (a < b)

/-- Python string comparison `a <= b`. -/
def pyStrLe (a b : String) : Bool := leChars a.toList b.toList

/-- Insert `a` into `l` behind every element `b` with `le b a`: the
insertion step of a stable sort (equal elements keep their prior order,
since the later-processed element goes after them). -/
def insSorted (le : α → α → Bool) (a : α) : List α → List α
  | [] => [a]
  | b :: l => if le b a then b :: insSorted le a l else a :: b :: l

/-- Stable sort by repeated insertion.  Python's `sorted` is guaranteed
stable, and for a total preorder the stable sorted permutation is unique,
so insertion sort computes the same list `sorted` does. -/
def stableSort (le : α → α → Bool) (l : List α) : List α :=
  l.foldl (fun acc a => insSorted le a acc) []

/-- `operator.itemgetter(ncol)` on a `[label, path, state]` row; the
table has exactly the three columns 0, 1, 2. -/
def sortKey (ncol : Nat) (r : JobRecord) : String :=
  match ncol with
  | 0 => r.label
  | 1 => r.path
  | _ => r.state

/-- The comparison used by `sorted(self.arraydata, key=itemgetter(ncol),
reverse=order)`: with `reverse=True` the key comparison is flipped while
ties still keep their original order. -/
def sortLe (ncol : Nat) (rev : Bool) (x y : JobRecord) : Bool :=
  if rev then pyStrLe (sortKey ncol y) (sortKey ncol x)
  else pyStrLe (sortKey ncol x) (sortKey ncol y)

/-- `CustomTableModel.sort` (lines 623–633): `arraydata` is the same list
object as `MainWindow.data`, re-sliced in place with the sorted rows, so
sorting rewrites the view and leaves `data_all` alone. -/
def tableSort (ncol : Nat) (rev : Bool) (st : ViewState) : ViewState :=
  { st with data := stableSort (sortLe ncol rev) st.data }

/-- A view-projection operation: a search-text change or a column sort. -/
inductive ViewOp where
  | search (text : String)
  | sortBy (ncol : Nat) (rev : Bool)

/-- Apply one view operation. -/
def applyOp (st : ViewState) : ViewOp → ViewState
  | .search t => on_search_changed t st
  | .sortBy c r => tableSort c r st

/-- Apply a sequence of filter/sort operations. -/
def applyOps (ops : List ViewOp) (st : ViewState) : ViewState :=
  ops.foldl applyOp st

/-- `MainWindow.initialize_data` (lines 142–149): on success
`self.data[:] = self.load_data_launchctl(idx)` and
`self.data_all[:] = self.data`; the bare `except` catches the
`IndexError` raised before any cache write, leaving view, snapshot and
cache unchanged. -/
def initialize_data (listing : String) (describe : String → String)
    (st : ViewState) (jobs : List (String × String)) :
    ViewState × List (String × String) :=
  match load_data_launchctl listing describe jobs with
  | some (d, j) => (⟨d, d⟩, j)
  | none => (st, jobs)

/-- Detail text fixture for the spec scenario of `com.a.one`. -/
def detailOne : String :=
  "\tpath = /Library/LaunchAgents/com.a.one.plist\n\tstate = running\n"

/-- Detail fetcher fixture: only `com.a.one` has detail text. -/
def describeOne (lab : String) : String := if lab == "com.a.one" then detailOne else ""

/-- Listing fixture of the spec scenario: one registered service. -/
def listingOne : String := "services = \x7b\n\t1\t-\tcom.a.one\n\t\x7d\n"

/-- The filter predicate as the specification claim words it: label
contains the text case-insensitively, OR the path contains the text
case-sensitively.  This is the comparison target for the refinement
claim about `on_search_changed`; the code itself is `recordMatches`. -/
def claimFilterPred (text : String) (d : JobRecord) : Bool :=
  containsSubList (lowerList text.toList) (lowerList d.label.toList) ||
    containsSubList text.toList d.path.toList

/-- The filter predicate as the code actually behaves, worded for the
amended claim: label contains the text case-insensitively, OR the
lowercased path contains the text exactly as typed (so path matching is
case-insensitive on the path side only, and search text containing an
uppercase letter can never match through the path clause). -/
def amendedFilterPred (text : String) (d : JobRecord) : Bool :=
  containsSubList (lowerList text.toList) (lowerList d.label.toList) ||
    containsSubList text.toList (lowerList d.path.toList)

/-- Does a detail text carry a first `path = ` capture that is an
absolute path?  (`False` both when the path regex finds nothing and when
its first capture does not start with `/`.) -/
def detailAbsPath (d : String) : Bool :=
  match findKey pathKey d.toList with
  | some p => startsWithList ['/'] p
  | none => false

/-- The row the spec scenario expects for `com.a.one`. -/
def recordOne : JobRecord :=
  ⟨"com.a.one", "/Library/LaunchAgents/com.a.one.plist", "running"⟩

/-- A listing without the `services = \x7b` block marker. -/
def listingNoMarker : String := "com.apple.xpc.launchd.domain.system = \x7b\n\x7d\n"

/-- A record whose path contains upper-case text. -/
def recUpperPath : JobRecord := ⟨"com.a.one", "/WEB/x.plist", "running"⟩

/-- View state whose snapshot holds just `recUpperPath`. -/
def stUpperPath : ViewState := ⟨[recUpperPath], [recUpperPath]⟩

/-- A pre-existing cache entry for a label that no listing reports. -/
def staleJobs : List (String × String) := [("stale.label", "old detail")]

/-- Listing fixture with one absolute-path label and one relative-path
label. -/
def listingTwo : String :=
  "services = \x7b\n\t-\t-\tcom.a.one\n\t-\t-\tcom.rel.two\n\t\x7d\n"

/-- Details for `listingTwo`: `com.rel.two` reports a relative path. -/
def describeTwo (lab : String) : String :=
  if lab == "com.a.one" then detailOne
  else if lab == "com.rel.two" then "\tpath = Library/rel.plist\n" else ""

/-- Listing fixture with one absolute-path label and one label whose
detail text has no path line at all. -/
def listingThree : String :=
  "services = \x7b\n\t-\t-\tcom.a.one\n\t-\t-\tcom.nopath\n\t\x7d\n"

/-- Details for `listingThree`: `com.nopath` has a state line only. -/
def describeThree (lab : String) : String :=
  if lab == "com.a.one" then detailOne else "\tstate = waiting\n"


/-- When `sep` does not occur in the text, `afterFirst` reports `none`
(so `split(sep)[1]` raises `IndexError`). -/
theorem afterFirst_eq_none_of_not_contains (sep : List Char) :
    ∀ cs, containsSubList sep cs = false → afterFirst sep cs = none := by
  intro cs
  induction cs with
  | nil => intro _; rfl
  | cons c rest ih =>
    intro h
    simp only [containsSubList, Bool.or_eq_false_iff] at h
    simp only [afterFirst, h.1, Bool.false_eq_true, if_false]
    exact ih h.2

/-- Lookup after a dict write: the written key reads back the new value,
every other key is unaffected. -/
theorem dictGet_dictInsert (k k' v : String) :
    ∀ d, dictGet k (dictInsert k' v d) = if k' = k then some v else dictGet k d := by
  intro d
  induction d with
  | nil => simp [dictGet, dictInsert]
  | cons p rest ih =>
    obtain ⟨a, b⟩ := p
    by_cases hak : a = k'
    · subst hak
      by_cases h : a = k <;> simp [dictInsert, dictGet, h]
    · by_cases h : a = k
      · subst h
        have hne : ¬ k' = a := fun e => hak e.symm
        simp [dictInsert, dictGet, hak, hne]
      · simp [dictInsert, dictGet, hak, h, ih]

/-- Reflexivity of the lexicographic string order. -/
theorem leChars_refl : ∀ l, leChars l l = true := by
  intro l
  induction l with
  | nil => rfl
  | cons c cs ih => simp [leChars, ih]

/-- Totality of the lexicographic string order. -/
theorem leChars_total : ∀ a b, leChars a b = true ∨ leChars b a = true := by
  intro a
  induction a with
  | nil => intro _; left; rfl
  | cons x xs ih =>
    intro b
    cases b with
    | nil => right; rfl
    | cons y ys =>
      by_cases hxy : x = y
      · subst hxy
        rcases ih ys with h | h
        · left; simp [leChars, h]
        · right; simp [leChars, h]
      · rcases lt_or_gt_of_ne hxy with h | h
        · left; simp [leChars, hxy, h]
        · right; simp [leChars, Ne.symm hxy, h]

/-- Transitivity of the lexicographic string order. -/
theorem leChars_trans : ∀ a b c, leChars a b = true → leChars b c = true →
    leChars a c = true := by
  intro a
  induction a with
  | nil => intro b c _ _; rfl
  | cons x xs ih =>
    intro b c hab hbc
    cases b with
    | nil => simp [leChars] at hab
    | cons y ys =>
      cases c with
      | nil => simp [leChars] at hbc
      | cons z zs =>
        simp only [leChars] at hab hbc ⊢
        by_cases hxy : x = y
        · subst hxy
          rw [if_pos rfl] at hab
          by_cases hxz : x = z
          · subst hxz
            rw [if_pos rfl] at hbc ⊢
            exact ih ys zs hab hbc
          · rw [if_neg hxz] at hbc ⊢
            exact hbc
        · rw [if_neg hxy] at hab
          have hlt : x < y := by simpa using hab
          by_cases hyz : y = z
          · subst hyz
            rw [if_neg hxy]
            simpa using hlt
          · rw [if_neg hyz] at hbc
            have hlt' : y < z := by simpa using hbc
            have hxz' : x < z := lt_trans hlt hlt'
            have hxz : ¬ x = z := ne_of_lt hxz'
            rw [if_neg hxz]
            simpa using hxz'

/-- Membership in an insertion step. -/
theorem mem_insSorted {α : Type} (le : α → α → Bool) (a x : α) :
    ∀ l, x ∈ insSorted le a l ↔ x = a ∨ x ∈ l := by
  intro l
  induction l with
  | nil => simp [insSorted]
  | cons b bs ih =>
    simp only [insSorted]
    by_cases h : le b a = true
    · rw [if_pos h, List.mem_cons, ih, List.mem_cons]
      tauto
    · rw [if_neg h, List.mem_cons]

/-- An insertion step keeps the accumulator sorted. -/
theorem pairwise_insSorted {α : Type} (le : α → α → Bool)
    (htr : ∀ x y z, le x y = true → le y z = true → le x z = true)
    (hto : ∀ x y, le x y = true ∨ le y x = true) (a : α) :
    ∀ l, l.Pairwise (fun x y => le x y = true) →
      (insSorted le a l).Pairwise (fun x y => le x y = true) := by
  intro l
  induction l with
  | nil => intro _; simp [insSorted]
  | cons b bs ih =>
    intro hp
    rw [List.pairwise_cons] at hp
    obtain ⟨hb, hbs⟩ := hp
    simp only [insSorted]
    by_cases hba : le b a = true
    · rw [if_pos hba, List.pairwise_cons]
      refine ⟨fun x hx => ?_, ih hbs⟩
      rcases (mem_insSorted le a x bs).mp hx with rfl | hx'
      · exact hba
      · exact hb x hx'
    · rw [if_neg hba, List.pairwise_cons]
      have hab : le a b = true := by
        rcases hto a b with h | h
        · exact h
        · exact absurd h hba
      refine ⟨fun x hx => ?_, List.pairwise_cons.mpr ⟨hb, hbs⟩⟩
      rcases List.mem_cons.mp hx with rfl | hx'
      · exact hab
      · exact htr a b x hab (hb x hx')

/-- Stability of an insertion step into a sorted accumulator: for any
key value `s`, the elements with that key are preserved in order, the
newly inserted one going last among its equals. -/
theorem filter_insSorted {α : Type} (le : α → α → Bool) (k : α → String)
    (hk : ∀ x y, k x = k y → le x y = true)
    (htr : ∀ x y z, le x y = true → le y z = true → le x z = true)
    (a : α) (s : String) :
    ∀ l, l.Pairwise (fun x y => le x y = true) →
      (insSorted le a l).filter (fun x => decide (k x = s)) =
        if k a = s then l.filter (fun x => decide (k x = s)) ++ [a]
        else l.filter (fun x => decide (k x = s)) := by
  intro l
  induction l with
  | nil =>
    intro _
    by_cases h : k a = s <;> simp [insSorted, h]
  | cons b bs ih =>
    intro hp
    rw [List.pairwise_cons] at hp
    obtain ⟨hb, hbs⟩ := hp
    simp only [insSorted]
    by_cases hba : le b a = true
    · rw [if_pos hba]
      by_cases hak : k a = s <;>
        by_cases hbk : k b = s <;>
          simp [List.filter_cons, hak, hbk, ih hbs]
    · rw [if_neg hba]
      by_cases hak : k a = s
      · have hnone : (b :: bs).filter (fun x => decide (k x = s)) = [] := by
          rw [List.filter_eq_nil_iff]
          intro x hx hxk
          have hxs : k x = s := by simpa using hxk
          rcases List.mem_cons.mp hx with rfl | hx'
          · exact hba (hk x a (hxs.trans hak.symm))
          · exact hba (htr b x a (hb x hx') (hk x a (hxs.trans hak.symm)))
        simp [List.filter_cons, hak, hnone]
      · simp [List.filter_cons, hak]

/-- The accumulator of the insertion fold stays sorted. -/
theorem pairwise_foldl_insSorted {α : Type} (le : α → α → Bool)
    (htr : ∀ x y z, le x y = true → le y z = true → le x z = true)
    (hto : ∀ x y, le x y = true ∨ le y x = true) :
    ∀ (l acc : List α), acc.Pairwise (fun x y => le x y = true) →
      (l.foldl (fun acc a => insSorted le a acc) acc).Pairwise
        (fun x y => le x y = true) := by
  intro l
  induction l with
  | nil => intro acc h; exact h
  | cons a l ih =>
    intro acc h
    exact ih (insSorted le a acc) (pairwise_insSorted le htr hto a acc h)

/-- The output of the stable sort is sorted. -/
theorem pairwise_stableSort {α : Type} (le : α → α → Bool)
    (htr : ∀ x y z, le x y = true → le y z = true → le x z = true)
    (hto : ∀ x y, le x y = true ∨ le y x = true) (l : List α) :
    (stableSort le l).Pairwise (fun x y => le x y = true) :=
  pairwise_foldl_insSorted le htr hto l [] List.Pairwise.nil

/-- Key-filter invariance of the insertion fold (stability). -/
theorem filter_foldl_insSorted {α : Type} (le : α → α → Bool) (k : α → String)
    (hk : ∀ x y, k x = k y → le x y = true)
    (htr : ∀ x y z, le x y = true → le y z = true → le x z = true)
    (hto : ∀ x y, le x y = true ∨ le y x = true) (s : String) :
    ∀ (l acc : List α), acc.Pairwise (fun x y => le x y = true) →
      (l.foldl (fun acc a => insSorted le a acc) acc).filter
          (fun x => decide (k x = s)) =
        acc.filter (fun x => decide (k x = s)) ++
          l.filter (fun x => decide (k x = s)) := by
  intro l
  induction l with
  | nil => intro acc _; simp
  | cons a l ih =>
    intro acc h
    have step := ih (insSorted le a acc) (pairwise_insSorted le htr hto a acc h)
    rw [List.foldl_cons, step, filter_insSorted le k hk htr a s acc h,
      List.filter_cons]
    by_cases hak : k a = s <;> simp [hak]

/-- Stability of the stable sort: for every key value, the records with
that key appear in the output exactly as they appeared in the input. -/
theorem filter_stableSort {α : Type} (le : α → α → Bool) (k : α → String)
    (hk : ∀ x y, k x = k y → le x y = true)
    (htr : ∀ x y z, le x y = true → le y z = true → le x z = true)
    (hto : ∀ x y, le x y = true ∨ le y x = true) (s : String) (l : List α) :
    (stableSort le l).filter (fun x => decide (k x = s)) =
      l.filter (fun x => decide (k x = s)) := by
  have h := filter_foldl_insSorted le k hk htr hto s l [] List.Pairwise.nil
  simpa [stableSort] using h

/-- Inserting an element that every accumulator element precedes appends
it at the end. -/
theorem insSorted_eq_append {α : Type} (le : α → α → Bool) (a : α) :
    ∀ l, (∀ b ∈ l, le b a = true) → insSorted le a l = l ++ [a] := by
  intro l
  induction l with
  | nil => intro _; rfl
  | cons b bs ih =>
    intro h
    simp only [insSorted]
    rw [if_pos (h b (List.mem_cons_self b bs)), ih fun x hx =>
      h x (List.mem_cons_of_mem b hx)]
    rfl

/-- Folding insertion over an already sorted remainder reproduces it. -/
theorem foldl_insSorted_of_pairwise {α : Type} (le : α → α → Bool) :
    ∀ (l acc : List α), (acc ++ l).Pairwise (fun x y => le x y = true) →
      l.foldl (fun acc a => insSorted le a acc) acc = acc ++ l := by
  intro l
  induction l with
  | nil => intro acc _; simp
  | cons a l ih =>
    intro acc h
    have hcross : ∀ b ∈ acc, le b a = true := by
      intro b hb
      have := (List.pairwise_append.mp h).2.2 b hb a (List.mem_cons_self a l)
      exact this
    rw [List.foldl_cons, insSorted_eq_append le a acc hcross, ih]
    · simp
    · simpa using h

/-- Sorting an already sorted list with the stable sort is the identity. -/
theorem stableSort_idem {α : Type} (le : α → α → Bool)
    (htr : ∀ x y z, le x y = true → le y z = true → le x z = true)
    (hto : ∀ x y, le x y = true ∨ le y x = true) (l : List α) :
    stableSort le (stableSort le l) = stableSort le l := by
  have hs := pairwise_stableSort le htr hto l
  have h := foldl_insSorted_of_pairwise le (stableSort le l) [] (by simpa using hs)
  simpa [stableSort] using h

/-- Equal keys compare `true` under the table comparison (either
direction of `reverse`). -/
theorem sortLe_of_key_eq (ncol : Nat) (rev : Bool) (x y : JobRecord)
    (h : sortKey ncol x = sortKey ncol y) : sortLe ncol rev x y = true := by
  unfold sortLe pyStrLe
  rw [h]
  cases rev <;> simp [leChars_refl]

/-- Transitivity of the table comparison. -/
theorem sortLe_trans (ncol : Nat) (rev : Bool) (x y z : JobRecord)
    (h1 : sortLe ncol rev x y = true) (h2 : sortLe ncol rev y z = true) :
    sortLe ncol rev x z = true := by
  unfold sortLe pyStrLe at h1 h2 ⊢
  cases rev
  · simp only [if_neg, Bool.false_eq_true] at h1 h2 ⊢
    exact leChars_trans _ _ _ h1 h2
  · simp only [if_pos] at h1 h2 ⊢
    exact leChars_trans _ _ _ h2 h1

/-- Totality of the table comparison. -/
theorem sortLe_total (ncol : Nat) (rev : Bool) (x y : JobRecord) :
    sortLe ncol rev x y = true ∨ sortLe ncol rev y x = true := by
  unfold sortLe pyStrLe
  cases rev <;> simp only [if_pos, if_neg, Bool.false_eq_true]
  · exact leChars_total _ _
  · exact (leChars_total _ _).symm

/-- The cache component of one loop step: a skipped empty label leaves
the cache alone, any other line writes the fetched detail text. -/
theorem loadStep_snd (describe : String → String)
    (acc : List JobRecord × List (String × String)) (line : List Char) :
    (loadStep describe acc line).2 =
      if (lineLabel line).isEmpty then acc.2
      else dictInsert (String.mk (lineLabel line))
        (describe (String.mk (lineLabel line))) acc.2 := by
  by_cases h : (lineLabel line).isEmpty
  · simp [loadStep, h]
  · simp only [loadStep, h, Bool.false_eq_true, if_false]
    cases hfk : findKey pathKey (describe (String.mk (lineLabel line))).toList with
    | none => simp [hfk]
    | some p =>
      by_cases hs : startsWithList ['/'] p = true <;> simp [hfk, hs]

/-- The cache after the loop is the incoming cache with one write per
listed label. -/
theorem foldl_loadStep_snd (describe : String → String) :
    ∀ (lines : List (List Char)) (acc : List JobRecord × List (String × String)),
      (lines.foldl (loadStep describe) acc).2 =
        (labelsOfLines lines).foldl
          (fun j lab => dictInsert lab (describe lab) j) acc.2 := by
  intro lines
  induction lines with
  | nil => intro acc; rfl
  | cons line ls ih =>
    intro acc
    rw [List.foldl_cons, ih]
    by_cases h : (lineLabel line).isEmpty
    · have hlbl : labelsOfLines (line :: ls) = labelsOfLines ls := by
        simp [labelsOfLines, List.filter_cons, h]
      rw [hlbl, loadStep_snd, if_pos h]
    · have hlbl : labelsOfLines (line :: ls) =
          String.mk (lineLabel line) :: labelsOfLines ls := by
        simp [labelsOfLines, List.filter_cons, h]
      rw [hlbl, List.foldl_cons, loadStep_snd, if_neg h]

/-- Lookup through the per-label write fold. -/
theorem dictGet_foldl_dictInsert (describe : String → String) (k : String) :
    ∀ (labels : List String) (j : List (String × String)),
      dictGet k (labels.foldl (fun j lab => dictInsert lab (describe lab) j) j) =
        if k ∈ labels then some (describe k) else dictGet k j := by
  intro labels
  induction labels with
  | nil => intro j; simp
  | cons lab labs ih =>
    intro j
    rw [List.foldl_cons, ih]
    by_cases hm : k ∈ labs
    · simp [hm, List.mem_cons]
    · rw [dictGet_dictInsert]
      by_cases he : lab = k
      · subst he
        simp [hm, List.mem_cons]
      · have hne : ¬ k = lab := fun e => he e.symm
        simp [hm, he, hne, List.mem_cons]

/-- The loop only ever appends rows. -/
theorem mem_loadStep_fst (describe : String → String)
    (acc : List JobRecord × List (String × String)) (line : List Char)
    (r : JobRecord) (h : r ∈ acc.1) : r ∈ (loadStep describe acc line).1 := by
  by_cases hl : (lineLabel line).isEmpty
  · simpa [loadStep, hl] using h
  · simp only [loadStep, hl, Bool.false_eq_true, if_false]
    cases hfk : findKey pathKey (describe (String.mk (lineLabel line))).toList with
    | none => simpa using h
    | some p =>
      by_cases hs : startsWithList ['/'] p = true <;>
        simp [hs, List.mem_append, h]

/-- A row present in the accumulator survives the rest of the loop. -/
theorem mem_foldl_loadStep (describe : String → String) :
    ∀ (lines : List (List Char)) (acc : List JobRecord × List (String × String))
      (r : JobRecord), r ∈ acc.1 → r ∈ (lines.foldl (loadStep describe) acc).1 := by
  intro lines
  induction lines with
  | nil => intro acc r h; exact h
  | cons line ls ih =>
    intro acc r h
    exact ih (loadStep describe acc line) r (mem_loadStep_fst describe acc line r h)

/-- Provenance of every row produced by the loop: either it was already
in the accumulator, or its fields were scraped from the detail text of
its own label — an absolute first `path` capture and the first `state`
capture (empty when the state regex finds nothing). -/
theorem mem_fst_foldl_loadStep (describe : String → String) :
    ∀ (lines : List (List Char)) (acc : List JobRecord × List (String × String))
      (r : JobRecord), r ∈ (lines.foldl (loadStep describe) acc).1 →
      r ∈ acc.1 ∨ ∃ p, findKey pathKey (describe r.label).toList = some p ∧
        startsWithList ['/'] p = true ∧ r.path = String.mk p ∧
        r.state = String.mk ((findKey stateKey (describe r.label).toList).getD []) := by
  intro lines
  induction lines with
  | nil => intro acc r h; exact Or.inl h
  | cons line ls ih =>
    intro acc r h
    rw [List.foldl_cons] at h
    rcases ih (loadStep describe acc line) r h with hstep | hgood
    · by_cases hl : (lineLabel line).isEmpty
      · simp only [loadStep, hl, if_pos] at hstep
        exact Or.inl hstep
      · simp only [loadStep, hl, Bool.false_eq_true, if_false] at hstep
        cases hfk : findKey pathKey
            (describe (String.mk (lineLabel line))).toList with
        | none =>
          simp only [hfk] at hstep
          exact Or.inl hstep
        | some p =>
          simp only [hfk] at hstep
          by_cases hs : startsWithList ['/'] p = true
          · rw [if_pos hs] at hstep
            rcases List.mem_append.mp hstep with hacc | hnew
            · exact Or.inl hacc
            · have hr := List.mem_singleton.mp hnew
              subst hr
              exact Or.inr ⟨p, hfk, hs, rfl, rfl⟩
          · rw [if_neg hs] at hstep
            exact Or.inl hstep
    · exact Or.inr hgood

/-- Every listed label whose detail text carries an absolute first
`path` capture contributes its scraped row to the loop result. -/
theorem listed_mem_foldl_loadStep (describe : String → String) :
    ∀ (lines : List (List Char)) (acc : List JobRecord × List (String × String))
      (lab : String) (p : List Char), lab ∈ labelsOfLines lines →
      findKey pathKey (describe lab).toList = some p →
      startsWithList ['/'] p = true →
      (⟨lab, String.mk p,
        String.mk ((findKey stateKey (describe lab).toList).getD [])⟩ : JobRecord) ∈
        (lines.foldl (loadStep describe) acc).1 := by
  intro lines
  induction lines with
  | nil => intro acc lab p hmem; simp [labelsOfLines] at hmem
  | cons line ls ih =>
    intro acc lab p hmem hfk hs
    rw [List.foldl_cons]
    by_cases hl : (lineLabel line).isEmpty
    · have hlbl : labelsOfLines (line :: ls) = labelsOfLines ls := by
        simp [labelsOfLines, List.filter_cons, hl]
      rw [hlbl] at hmem
      exact ih (loadStep describe acc line) lab p hmem hfk hs
    · have hlbl : labelsOfLines (line :: ls) =
          String.mk (lineLabel line) :: labelsOfLines ls := by
        simp [labelsOfLines, List.filter_cons, hl]
      rw [hlbl] at hmem
      rcases List.mem_cons.mp hmem with heq | hmem'
      · subst heq
        apply mem_foldl_loadStep
        simp only [loadStep, hl, Bool.false_eq_true, if_false]
        simp only [hfk]
        rw [if_pos hs]
        simp
      · exact ih (loadStep describe acc line) lab p hmem' hfk hs

/-- A single view operation never touches the snapshot field. -/
theorem applyOp_data_all (st : ViewState) (op : ViewOp) :
    (applyOp st op).data_all = st.data_all := by
  cases op with
  | search t =>
    by_cases h : t.isEmpty <;> simp [applyOp, on_search_changed, h]
  | sortBy c r => simp [applyOp, tableSort]

/-- No sequence of view operations touches the snapshot field. -/
theorem applyOps_data_all :
    ∀ (ops : List ViewOp) (st : ViewState), (applyOps ops st).data_all = st.data_all := by
  intro ops
  induction ops with
  | nil => intro st; rfl
  | cons op ops ih =>
    intro st
    have step : applyOps (op :: ops) st = applyOps ops (applyOp st op) := rfl
    rw [step, ih, applyOp_data_all]

/-- C1, counterexample.  The claim says that when the listing output does
not contain the `services = \x7b` marker, `loadSnapshot` returns an empty
Snapshot without raising; on a marker-free listing the code instead
raises `IndexError` out of `load_data_launchctl`, modelled here by the
`none` result — it does not return an empty Snapshot. -/
theorem C1_counterexample :
    load_data_launchctl listingNoMarker (fun _ => "") [] = none := by rfl

/-- C1, amended.  When the `services = \x7b` marker is absent from the
listing output, `load_data_launchctl` raises (returns `none`) rather
than producing an empty Snapshot, and the `try/except` of
`initialize_data` catches the error and leaves the previous view state
and detail cache unchanged. -/
theorem C1_amended_marker_absent (listing : String) (describe : String → String)
    (jobs : List (String × String)) (st : ViewState)
    (h : containsSubList servicesMarker listing.toList = false) :
    load_data_launchctl listing describe jobs = none ∧
      initialize_data listing describe st jobs = (st, jobs) := by
  have h' : afterFirst servicesMarker listing.data = none :=
    afterFirst_eq_none_of_not_contains servicesMarker listing.toList h
  exact ⟨by simp [load_data_launchctl, h'],
    by simp [initialize_data, load_data_launchctl, h']⟩

/-- C1, witness for the amended theorem at a concrete marker-free
listing and a non-trivial previous state. -/
theorem C1_witness :
    containsSubList servicesMarker listingNoMarker.toList = false ∧
      (load_data_launchctl listingNoMarker (fun _ => "") staleJobs = none ∧
        initialize_data listingNoMarker (fun _ => "")
          ⟨[recordOne], [recordOne]⟩ staleJobs = (⟨[recordOne], [recordOne]⟩, staleJobs)) :=
  ⟨by decide, C1_amended_marker_absent listingNoMarker (fun _ => "") staleJobs
    ⟨[recordOne], [recordOne]⟩ (by decide)⟩

/-- C2, counterexample.  The claim says path matching is case-sensitive;
but searching `"web"` matches a record whose path is `/WEB/x.plist`
(label `com.a.one` contains no `web`), because the code tests the text
against the lowercased path.  Under the claim's predicate the record is
excluded; the code's view keeps it. -/
theorem C2_counterexample :
    (on_search_changed "web" stUpperPath).data = [recUpperPath] ∧
      claimFilterPred "web" recUpperPath = false := by
  exact ⟨by rfl, by rfl⟩

/-- C2, amended.  For every non-empty filter text, the view contains
exactly the records whose label contains the text case-insensitively OR
whose lowercased path contains the text exactly as typed (the text is
not case-folded for the path clause). -/
theorem C2_amended_filter (st : ViewState) (text : String)
    (h : ¬ text.isEmpty = true) :
    (on_search_changed text st).data = st.data_all.filter (amendedFilterPred text) := by
  simp only [on_search_changed, h, Bool.false_eq_true, if_false]
  rfl

/-- C2, witness for the amended theorem at the `/WEB/x.plist` fixture. -/
theorem C2_witness :
    ¬ ("web" : String).isEmpty = true ∧
      (on_search_changed "web" stUpperPath).data =
        stUpperPath.data_all.filter (amendedFilterPred "web") :=
  ⟨by decide, C2_amended_filter stUpperPath "web" (by decide)⟩

/-- C3, counterexample.  The claim says the detail cache is fully
rebuilt on every load; starting from a cache holding `stale.label` (not
listed by `listingOne`), the reload still reports the stale entry. -/
theorem C3_counterexample :
    (load_data_launchctl listingOne describeOne staleJobs).map
        (fun res => dictGet "stale.label" res.2) = some (some "old detail") ∧
      listedLabels listingOne = ["com.a.one"] := by
  exact ⟨by rfl, by rfl⟩

/-- C3, amended.  After a successful load, the cache is the incoming
cache merged with one fresh write per listed label: every listed label
reads back this call's detail text, while entries for labels absent from
the listing survive untouched (the cache is merged, not rebuilt). -/
theorem C3_amended_cache (listing : String) (describe : String → String)
    (jobs : List (String × String)) (data : List JobRecord)
    (jobs' : List (String × String))
    (h : load_data_launchctl listing describe jobs = some (data, jobs')) (k : String) :
    dictGet k jobs' =
      if k ∈ listedLabels listing then some (describe k) else dictGet k jobs := by
  unfold load_data_launchctl at h
  cases hval : afterFirst servicesMarker listing.toList with
  | none =>
    rw [hval] at h
    simp at h
  | some rest =>
    rw [hval] at h
    have hp : ((pySplitlines (beforeFirst closingMarker
        (beforeFirst servicesMarker rest))).foldl (loadStep describe) ([], jobs)) =
          (data, jobs') := Option.some.inj h
    have hj : (((pySplitlines (beforeFirst closingMarker
        (beforeFirst servicesMarker rest))).foldl (loadStep describe)
          ([], jobs)).2) = jobs' := congrArg Prod.snd hp
    rw [← hj, foldl_loadStep_snd, dictGet_foldl_dictInsert]
    have hlbl : listedLabels listing =
        labelsOfLines (pySplitlines (beforeFirst closingMarker
          (beforeFirst servicesMarker rest))) := by
      unfold listedLabels
      rw [hval]
    rw [hlbl]

/-- C3, witness for the amended theorem: the stale entry is looked up
through the concrete reload. -/
theorem C3_witness :
    dictGet "stale.label" [("stale.label", "old detail"), ("com.a.one", detailOne)] =
      if "stale.label" ∈ listedLabels listingOne then some (describeOne "stale.label")
      else dictGet "stale.label" staleJobs :=
  C3_amended_cache listingOne describeOne staleJobs [recordOne]
    [("stale.label", "old detail"), ("com.a.one", detailOne)] (by rfl) "stale.label"

/-- Deconstruction of a successful load: the rows are the loop result
over the sliced services block, and `listedLabels` is the label list of
those lines. -/
theorem load_some_fst (listing : String) (describe : String → String)
    (jobs : List (String × String)) (data : List JobRecord)
    (jobs' : List (String × String))
    (h : load_data_launchctl listing describe jobs = some (data, jobs')) :
    ∃ rest, afterFirst servicesMarker listing.toList = some rest ∧
      data = ((pySplitlines (beforeFirst closingMarker
        (beforeFirst servicesMarker rest))).foldl (loadStep describe) ([], jobs)).1 ∧
      listedLabels listing = labelsOfLines (pySplitlines (beforeFirst closingMarker
        (beforeFirst servicesMarker rest))) := by
  unfold load_data_launchctl at h
  cases hval : afterFirst servicesMarker listing.toList with
  | none =>
    rw [hval] at h
    simp at h
  | some rest =>
    rw [hval] at h
    refine ⟨rest, rfl, ?_, ?_⟩
    · exact (congrArg Prod.fst (Option.some.inj h)).symm
    · unfold listedLabels
      rw [hval]

/-- C4: every row of a successful load has an absolute path (it starts
with the root separator `/`), and a label whose detail text reports a
relative path — or no path — yields no row at all. -/
theorem C4_absolute_paths (listing : String) (describe : String → String)
    (jobs : List (String × String)) (data : List JobRecord)
    (jobs' : List (String × String))
    (h : load_data_launchctl listing describe jobs = some (data, jobs')) :
    (∀ r ∈ data, startsWithList ['/'] r.path.toList = true) ∧
      (∀ lab, detailAbsPath (describe lab) = false → ∀ r ∈ data, r.label ≠ lab) := by
  obtain ⟨rest, hval, hdata, -⟩ := load_some_fst listing describe jobs data jobs' h
  constructor
  · intro r hr
    rw [hdata] at hr
    rcases mem_fst_foldl_loadStep describe _ _ r hr with hacc | ⟨p, hfk, hs, hpath, -⟩
    · exact absurd hacc (List.not_mem_nil r)
    · rw [hpath]
      exact hs
  · intro lab habs r hr heq
    rw [hdata] at hr
    rcases mem_fst_foldl_loadStep describe _ _ r hr with hacc | ⟨p, hfk, hs, -, -⟩
    · exact absurd hacc (List.not_mem_nil r)
    · rw [heq] at hfk
      simp only [detailAbsPath, hfk] at habs
      rw [hs] at habs
      simp at habs

/-- C4, witness: through the concrete two-label load, the produced row's
path starts with `/`, and no row carries the relative-path label. -/
theorem C4_witness :
    startsWithList ['/'] "/Library/LaunchAgents/com.a.one.plist".toList = true ∧
      ("com.a.one" : String) ≠ "com.rel.two" := by
  have h := C4_absolute_paths listingTwo describeTwo [] [recordOne]
    [("com.a.one", detailOne), ("com.rel.two", "\tpath = Library/rel.plist\n")] (by rfl)
  exact ⟨h.1 recordOne (by simp), h.2 "com.rel.two" (by rfl) recordOne (by simp)⟩

/-- C5: no sequence of search-filter and column-sort operations modifies
the underlying snapshot `data_all`; only the derived view `data`
changes. -/
theorem C5_snapshot_untouched (ops : List ViewOp) (st : ViewState) :
    (applyOps ops st).data_all = st.data_all :=
  applyOps_data_all ops st

/-- C6: on the spec's fixture — listing `services = \x7b` block with the
single label `com.a.one` and detail text carrying an absolute path line
and a `running` state line — the load returns exactly the one expected
row. -/
theorem C6_scenario :
    (load_data_launchctl listingOne describeOne []).map Prod.fst =
      some [⟨"com.a.one", "/Library/LaunchAgents/com.a.one.plist", "running"⟩] := by
  rfl

/-- C7: a label whose detail text has no `path = ` match is dropped from
the snapshot (no row carries it), and a listed label whose detail text
has an absolute first `path` capture contributes a row whose state is
the first `state = ` capture, or the empty string when the state regex
finds nothing. -/
theorem C7_detail_parsing (listing : String) (describe : String → String)
    (jobs : List (String × String)) (data : List JobRecord)
    (jobs' : List (String × String)) (lab : String)
    (h : load_data_launchctl listing describe jobs = some (data, jobs')) :
    (findKey pathKey (describe lab).toList = none → ∀ r ∈ data, r.label ≠ lab) ∧
      (∀ p, lab ∈ listedLabels listing →
        findKey pathKey (describe lab).toList = some p →
        startsWithList ['/'] p = true →
        (⟨lab, String.mk p,
          String.mk ((findKey stateKey (describe lab).toList).getD [])⟩ : JobRecord) ∈
          data) := by
  obtain ⟨rest, hval, hdata, hlbl⟩ := load_some_fst listing describe jobs data jobs' h
  constructor
  · intro hnone r hr heq
    rw [hdata] at hr
    rcases mem_fst_foldl_loadStep describe _ _ r hr with hacc | ⟨p, hfk, -, -, -⟩
    · exact absurd hacc (List.not_mem_nil r)
    · rw [heq, hnone] at hfk
      exact Option.noConfusion hfk
  · intro p hmem hfk hs
    rw [hdata]
    rw [hlbl] at hmem
    exact listed_mem_foldl_loadStep describe _ _ lab p hmem hfk hs

/-- C7, witness: in the concrete load where `com.nopath` has a state
line but no path line, that label is dropped (the sole row is for
`com.a.one`), while `com.a.one` contributes its scraped row. -/
theorem C7_witness :
    (⟨"com.a.one", "/Library/LaunchAgents/com.a.one.plist", "running"⟩ : JobRecord) ∈
        [recordOne] ∧ ("com.a.one" : String) ≠ "com.nopath" := by
  have hone := C7_detail_parsing listingThree describeThree [] [recordOne]
    [("com.a.one", detailOne), ("com.nopath", "\tstate = waiting\n")] "com.a.one" (by rfl)
  have hnop := C7_detail_parsing listingThree describeThree [] [recordOne]
    [("com.a.one", detailOne), ("com.nopath", "\tstate = waiting\n")] "com.nopath" (by rfl)
  exact ⟨hone.2 "/Library/LaunchAgents/com.a.one.plist".toList (by decide) (by rfl)
    (by decide), hnop.1 (by rfl) recordOne (by simp)⟩

/-- C8: clearing the filter after any filter restores the full snapshot
as the view, in snapshot order. -/
theorem C8_clear_restores (st : ViewState) (x : String) :
    (on_search_changed "" (on_search_changed x st)).data = st.data_all := by
  have he : ("" : String).isEmpty = true := rfl
  by_cases h : x.isEmpty <;> simp [on_search_changed, h, he]

/-- C9: the column sort is stable — for every key value, the rows with
that value in the sort column keep their pre-sort relative order — and
re-sorting with the same column and direction is idempotent. -/
theorem C9_sort_stable_idem (ncol : Nat) (rev : Bool) (st : ViewState) (s : String) :
    (tableSort ncol rev st).data.filter (fun r => decide (sortKey ncol r = s)) =
        st.data.filter (fun r => decide (sortKey ncol r = s)) ∧
      tableSort ncol rev (tableSort ncol rev st) = tableSort ncol rev st := by
  constructor
  · simpa [tableSort] using filter_stableSort (sortLe ncol rev) (sortKey ncol)
      (sortLe_of_key_eq ncol rev) (sortLe_trans ncol rev) (sortLe_total ncol rev)
      s st.data
  · simp only [tableSort]
    rw [stableSort_idem (sortLe ncol rev) (sortLe_trans ncol rev) (sortLe_total ncol rev)]

/-- C10: every search call recomputes the view from the snapshot in its
original tool-reported order, so earlier sorts (or any other view
operations) are discarded: after any operation sequence, filtering gives
the same view as filtering the untouched state, and clearing the filter
yields the snapshot in listing order. -/
theorem C10_search_recomputes (ops : List ViewOp) (st : ViewState) (text : String) :
    (on_search_changed text (applyOps ops st)).data = (on_search_changed text st).data ∧
      (on_search_changed "" (applyOps ops st)).data = st.data_all := by
  have h := applyOps_data_all ops st
  have he : ("" : String).isEmpty = true := rfl
  constructor
  · by_cases ht : text.isEmpty <;> simp [on_search_changed, ht, h]
  · simp [on_search_changed, h, he]
